import Mathlib

/-!
Verification of the Extrapolation Distance & Correlation Engine of the
`convex_hydrology` repository, together with the Hawaii atmosphere
comparison script (`compare_hawaii_atmosphere.js`).

The geometry kernel, extrapolation metric builder, correlation analyzer
and temporal extension are modelled from the design specification (the
corresponding python modules `hull.py`, `trend.py`, `camhull.py`,
`correlation.py`, `temporal.py` are referenced by the repository README
but are not part of the visible sources).  The Earth-Engine script is
embedded directly from its JavaScript source.
-/

namespace ConvexHydrology

/-- Points of the attribute space: vectors in `n`-dimensional Euclidean
space (`AttributeVector` restricted to a chosen subspace of `n`
dimensions). -/
abbrev Vec (n : ℕ) := EuclideanSpace ℝ (Fin n)

/-- Interpret a raw list of coordinates as a point of the `n`-dimensional
attribute space (missing coordinates read as 0; callers check lengths). -/
def toVec (n : ℕ) (v : List ℝ) : Vec n := fun i => v.getD i 0

/-- Modelled from the spec: a `ConvexHull` object is built from a
nonempty training point list; the geometric region it denotes is the
convex hull of those points (`hull.py` is not in the visible sources). -/
def Hull (n : ℕ) := { l : List (Vec n) // l ≠ [] }

/-- The geometric region denoted by a hull: the smallest convex region
containing the training points. -/
def region {n : ℕ} (h : Hull n) : Set (Vec n) := convexHull ℝ {x | x ∈ h.1}

/-- Modelled from the spec: `distance_to_hull(hull, point)` returns 0
when the point lies inside or on the hull and otherwise the minimum
Euclidean distance from the point to the hull. -/
noncomputable def distance_to_hull {n : ℕ} (h : Hull n) (p : Vec n) : ℝ :=
  Metric.infDist p (region h)

/-- Modelled from the spec: `contains(hull, point)` is the strict
membership test for the hull region. -/
def contains {n : ℕ} (h : Hull n) (p : Vec n) : Prop := p ∈ region h

lemma region_finite_gen {n : ℕ} (h : Hull n) : {x | x ∈ h.1}.Finite :=
  h.1.finite_toSet

lemma region_isClosed {n : ℕ} (h : Hull n) : IsClosed (region h) :=
  (region_finite_gen h).isCompact_convexHull.isClosed

lemma region_isCompact {n : ℕ} (h : Hull n) : IsCompact (region h) :=
  (region_finite_gen h).isCompact_convexHull

lemma region_nonempty {n : ℕ} (h : Hull n) : (region h).Nonempty := by
  obtain ⟨x, hx⟩ := List.exists_mem_of_ne_nil h.1 h.2
  exact ⟨x, subset_convexHull ℝ _ hx⟩

lemma region_convex {n : ℕ} (h : Hull n) : Convex ℝ (region h) :=
  convex_convexHull ℝ _

/-- C1: `distance_to_hull` is non-negative; `contains` holds exactly when
the distance equals 0, and equivalently exactly when the distance is ≤ 0,
so the two phrasings of the spec are jointly consistent. -/
theorem contains_iff_distance_zero {n : ℕ} (h : Hull n) (p : Vec n) :
    0 ≤ distance_to_hull h p ∧
      (contains h p ↔ distance_to_hull h p = 0) ∧
      (contains h p ↔ distance_to_hull h p ≤ 0) := by
  have hcl : IsClosed (region h) := region_isClosed h
  have hne : (region h).Nonempty := region_nonempty h
  have hmem : contains h p ↔ distance_to_hull h p = 0 :=
    hcl.mem_iff_infDist_zero hne
  refine ⟨Metric.infDist_nonneg, hmem, ?_⟩
  constructor
  · intro hc
    exact le_of_eq (hmem.mp hc)
  · intro hle
    exact hmem.mpr (le_antisymm hle Metric.infDist_nonneg)

/-- Modelled from the spec: the error taxonomy of the geometry kernel. -/
inductive HullError
  | DimensionMismatchError
  | DegenerateInputError
deriving DecidableEq

/-- The degeneracy condition of `build_hull`: among the supplied raw
points there are `dims + 1` affinely-independent ones, picked out by an
injective choice of indices. -/
def HasAffIndepFamily (training_points : List (List ℝ)) (dims : ℕ) : Prop :=
  ∃ f : Fin (dims + 1) → Fin training_points.length,
    Function.Injective f ∧
      AffineIndependent ℝ (fun i => toVec dims (training_points.get (f i)))

open Classical in
/-- Modelled from the spec: `build_hull(training_points, dims)` constructs
the hull over the chosen dimension subset; it fails with
`DimensionMismatchError` if vectors disagree in length (with the chosen
dimensionality) and with `DegenerateInputError` if fewer than `dims + 1`
affinely-independent points are supplied. -/
noncomputable def build_hull (training_points : List (List ℝ)) (dims : ℕ) :
    Except HullError (Hull dims) :=
  if _hlen : ∀ v ∈ training_points, v.length = dims then
    if hind : HasAffIndepFamily training_points dims then
      .ok ⟨training_points.map (toVec dims), by
        obtain ⟨f, -, -⟩ := hind
        have hpos : 0 < training_points.length := (f 0).pos
        have : training_points ≠ [] := List.length_pos.mp hpos
        simpa using this⟩
    else .error .DegenerateInputError
  else .error .DimensionMismatchError

lemma build_hull_ok_iff {training_points : List (List ℝ)} {dims : ℕ} {h : Hull dims} :
    build_hull training_points dims = .ok h ↔
      (∀ v ∈ training_points, v.length = dims) ∧
        HasAffIndepFamily training_points dims ∧
        h.1 = training_points.map (toVec dims) := by
  unfold build_hull
  constructor
  · intro hok
    split at hok
    · split at hok
      · refine ⟨by assumption, by assumption, ?_⟩
        cases hok
        rfl
      · cases hok
    · cases hok
  · rintro ⟨hlen, hind, hpts⟩
    rw [dif_pos hlen, dif_pos hind]
    congr 1
    exact Subtype.ext hpts.symm

/-- C3: `build_hull` fails with `DimensionMismatchError` whenever a
supplied vector disagrees with the chosen dimensionality, fails with
`DegenerateInputError` whenever the (well-formed) input has no
`dims + 1` affinely-independent points, and any successfully built hull
comes from at least `dims + 1` supplied points. -/
theorem build_hull_error_spec (training_points : List (List ℝ)) (dims : ℕ) :
    ((¬ ∀ v ∈ training_points, v.length = dims) →
        build_hull training_points dims = .error .DimensionMismatchError) ∧
      ((∀ v ∈ training_points, v.length = dims) →
        ¬ HasAffIndepFamily training_points dims →
        build_hull training_points dims = .error .DegenerateInputError) ∧
      (∀ h : Hull dims, build_hull training_points dims = .ok h →
        dims + 1 ≤ training_points.length ∧ dims + 1 ≤ h.1.length) := by
  refine ⟨?_, ?_, ?_⟩
  · intro hbad
    unfold build_hull
    rw [dif_neg hbad]
  · intro hlen hdeg
    unfold build_hull
    rw [dif_pos hlen, dif_neg hdeg]
  · intro h hok
    obtain ⟨-, ⟨f, hinj, -⟩, hpts⟩ := build_hull_ok_iff.mp hok
    have hcard : dims + 1 ≤ training_points.length := by
      have := Fintype.card_le_of_injective f hinj
      simpa using this
    refine ⟨hcard, ?_⟩
    rw [hpts, List.length_map]
    exact hcard

/-- Witness for C3: with dims = 2, the input `[[0],[1]]` (wrong vector
lengths) yields `DimensionMismatchError`, and the input `[[0,0],[1,1]]`
(only two points, so no three affinely-independent ones) yields
`DegenerateInputError`. -/
theorem build_hull_error_spec_witness :
    (¬ ∀ v ∈ [[(0 : ℝ)], [1]], v.length = 2) ∧
      build_hull [[(0 : ℝ)], [1]] 2 = .error .DimensionMismatchError ∧
      (∀ v ∈ [[(0 : ℝ), 0], [1, 1]], v.length = 2) ∧
      ¬ HasAffIndepFamily [[(0 : ℝ), 0], [1, 1]] 2 ∧
      build_hull [[(0 : ℝ), 0], [1, 1]] 2 = .error .DegenerateInputError := by
  have hbad : ¬ ∀ v ∈ [[(0 : ℝ)], [1]], v.length = 2 := by
    intro hall
    have := hall [0] (by simp)
    simp at this
  have hlen : ∀ v ∈ [[(0 : ℝ), 0], [1, 1]], v.length = 2 := by
    intro v hv
    rcases List.mem_cons.mp hv with rfl | hv
    · rfl
    · rcases List.mem_cons.mp hv with rfl | hv
      · rfl
      · cases hv
  have hdeg : ¬ HasAffIndepFamily [[(0 : ℝ), 0], [1, 1]] 2 := by
    rintro ⟨f, hinj, -⟩
    have h32 := Fintype.card_le_of_injective f hinj
    simp at h32
  exact ⟨hbad, (build_hull_error_spec _ 2).1 hbad, hlen,
    hdeg, (build_hull_error_spec _ 2).2.1 hlen hdeg⟩

lemma region_eq_of_perm {dims : ℕ} {l₁ l₂ : List (List ℝ)} (hperm : l₁.Perm l₂)
    {h₁ h₂ : Hull dims} (hok₁ : build_hull l₁ dims = .ok h₁)
    (hok₂ : build_hull l₂ dims = .ok h₂) : region h₁ = region h₂ := by
  obtain ⟨-, -, hp₁⟩ := build_hull_ok_iff.mp hok₁
  obtain ⟨-, -, hp₂⟩ := build_hull_ok_iff.mp hok₂
  unfold region
  rw [hp₁, hp₂]
  congr 1
  ext x
  exact (hperm.map (toVec dims)).mem_iff

/-- C8: `distance_to_hull` is deterministic (equal hull and point inputs
give equal outputs) and invariant under permutation of the training
point set used to build the hull. -/
theorem distance_deterministic_and_perm_invariant :
    (∀ (n : ℕ) (h h' : Hull n) (p p' : Vec n), h = h' → p = p' →
        distance_to_hull h p = distance_to_hull h' p') ∧
      (∀ (dims : ℕ) (l₁ l₂ : List (List ℝ)), l₁.Perm l₂ →
        ∀ h₁ h₂ : Hull dims, build_hull l₁ dims = .ok h₁ →
          build_hull l₂ dims = .ok h₂ →
          ∀ p : Vec dims, distance_to_hull h₁ p = distance_to_hull h₂ p) := by
  constructor
  · rintro n h h' p p' rfl rfl
    rfl
  · intro dims l₁ l₂ hperm h₁ h₂ hok₁ hok₂ p
    unfold distance_to_hull
    rw [region_eq_of_perm hperm hok₁ hok₂]

/-- The spec's 2-D example training set {(0,0),(0,1),(1,0),(1,1)}. -/
def sqPts : List (List ℝ) := [[0, 0], [0, 1], [1, 0], [1, 1]]

/-- The hull built from the square example points. -/
def sqHull : Hull 2 := ⟨sqPts.map (toVec 2), by simp [sqPts]⟩

/-- The hull built from the reversed square example points. -/
def sqHullRev : Hull 2 := ⟨sqPts.reverse.map (toVec 2), by simp [sqPts]⟩

/-- The closed unit square, as a subset of the 2-D attribute space. -/
def unitSquare : Set (Vec 2) :=
  {p | p 0 ∈ Set.Icc (0 : ℝ) 1 ∧ p 1 ∈ Set.Icc (0 : ℝ) 1}

lemma sq_affIndep :
    AffineIndependent ℝ ![toVec 2 [0, 0], toVec 2 [0, 1], toVec 2 [1, 0]] := by
  rw [affineIndependent_iff_of_fintype]
  intro w hw hvs
  rw [Finset.univ.weightedVSub_eq_linear_combination hw] at hvs
  rw [Fin.sum_univ_three] at hvs
  rw [Fin.sum_univ_three] at hw
  have h0 : (w 0 • toVec 2 [(0 : ℝ), 0] + w 1 • toVec 2 [0, 1] +
      w 2 • toVec 2 [1, 0]) 0 = (0 : Vec 2) 0 := by
    simp only [Matrix.cons_val_zero, Matrix.cons_val_one, Matrix.head_cons,
      Matrix.cons_val_two, Matrix.tail_cons] at hvs
    rw [hvs]
  have h1 : (w 0 • toVec 2 [(0 : ℝ), 0] + w 1 • toVec 2 [0, 1] +
      w 2 • toVec 2 [1, 0]) 1 = (0 : Vec 2) 1 := by
    simp only [Matrix.cons_val_zero, Matrix.cons_val_one, Matrix.head_cons,
      Matrix.cons_val_two, Matrix.tail_cons] at hvs
    rw [hvs]
  simp only [PiLp.add_apply, PiLp.smul_apply, PiLp.zero_apply, smul_eq_mul,
    toVec, List.getD] at h0 h1
  norm_num at h0 h1
  intro i
  fin_cases i
  · simpa using by linarith
  · simpa using h1
  · simpa using h0

lemma sqPts_hasAffIndep : HasAffIndepFamily sqPts 2 := by
  refine ⟨fun i => Fin.cast (by rfl) ((![0, 1, 2] : Fin 3 → Fin 4) i), by decide, ?_⟩
  have hfam : (fun i : Fin 3 =>
        toVec 2 (sqPts.get (Fin.cast (by rfl) ((![0, 1, 2] : Fin 3 → Fin 4) i))))
      = ![toVec 2 [0, 0], toVec 2 [0, 1], toVec 2 [1, 0]] := by
    funext i
    fin_cases i <;> rfl
  exact hfam ▸ sq_affIndep

lemma sqPtsRev_hasAffIndep : HasAffIndepFamily sqPts.reverse 2 := by
  refine ⟨fun i => Fin.cast (by rfl) ((![3, 2, 1] : Fin 3 → Fin 4) i), by decide, ?_⟩
  have hfam : (fun i : Fin 3 =>
        toVec 2 (sqPts.reverse.get (Fin.cast (by rfl) ((![3, 2, 1] : Fin 3 → Fin 4) i))))
      = ![toVec 2 [0, 0], toVec 2 [0, 1], toVec 2 [1, 0]] := by
    funext i
    fin_cases i <;> rfl
  exact hfam ▸ sq_affIndep

lemma sqPts_lengths : ∀ v ∈ sqPts, v.length = 2 := by
  intro v hv
  simp only [sqPts, List.mem_cons, List.not_mem_nil, or_false] at hv
  rcases hv with rfl | rfl | rfl | rfl <;> rfl

lemma build_hull_sq : build_hull sqPts 2 = .ok sqHull :=
  build_hull_ok_iff.mpr ⟨sqPts_lengths, sqPts_hasAffIndep, rfl⟩

lemma build_hull_sqRev : build_hull sqPts.reverse 2 = .ok sqHullRev :=
  build_hull_ok_iff.mpr ⟨fun v hv => sqPts_lengths v (sqPts.reverse_perm.mem_iff.mp hv),
    sqPtsRev_hasAffIndep, rfl⟩

/-- Witness for C8: the square training list and its reversal are
permutations of each other, both builds succeed, and the resulting hulls
assign the same distance to the query point (2,2). -/
theorem distance_perm_invariant_witness :
    sqPts.Perm sqPts.reverse ∧
      build_hull sqPts 2 = .ok sqHull ∧
      build_hull sqPts.reverse 2 = .ok sqHullRev ∧
      distance_to_hull sqHull (toVec 2 [2, 2]) =
        distance_to_hull sqHullRev (toVec 2 [2, 2]) :=
  ⟨sqPts.reverse_perm.symm, build_hull_sq, build_hull_sqRev,
    distance_deterministic_and_perm_invariant.2 2 sqPts sqPts.reverse
      sqPts.reverse_perm.symm sqHull sqHullRev build_hull_sq build_hull_sqRev
      (toVec 2 [2, 2])⟩

lemma unitSquare_convex : Convex ℝ unitSquare := by
  intro x hx y hy a b ha hb hab
  constructor
  · have := (convex_Icc (0 : ℝ) 1) hx.1 hy.1 ha hb hab
    simpa [PiLp.add_apply, PiLp.smul_apply, smul_eq_mul] using this
  · have := (convex_Icc (0 : ℝ) 1) hx.2 hy.2 ha hb hab
    simpa [PiLp.add_apply, PiLp.smul_apply, smul_eq_mul] using this

lemma sq_gen_mem_unitSquare : {x | x ∈ sqHull.1} ⊆ unitSquare := by
  intro x hx
  simp only [sqHull, sqPts, List.map_cons, List.map_nil, List.mem_cons,
    List.not_mem_nil, or_false, Set.mem_setOf_eq] at hx
  rcases hx with rfl | rfl | rfl | rfl <;>
    constructor <;> simp [toVec, Set.mem_Icc]

lemma corner_mem_region (c : List ℝ) (hc : c ∈ sqPts) :
    toVec 2 c ∈ region sqHull := by
  apply subset_convexHull ℝ _
  simp only [sqHull, Set.mem_setOf_eq]
  exact List.mem_map_of_mem (toVec 2) hc

lemma unitSquare_subset_region : unitSquare ⊆ region sqHull := by
  intro p hp
  obtain ⟨⟨hx0, hx1⟩, hy0, hy1⟩ := hp
  set x : ℝ := p 0 with hxdef
  set y : ℝ := p 1 with hydef
  have h00 : toVec 2 [0, 0] ∈ region sqHull := corner_mem_region _ (by simp [sqPts])
  have h01 : toVec 2 [0, 1] ∈ region sqHull := corner_mem_region _ (by simp [sqPts])
  have h10 : toVec 2 [1, 0] ∈ region sqHull := corner_mem_region _ (by simp [sqPts])
  have h11 : toVec 2 [1, 1] ∈ region sqHull := corner_mem_region _ (by simp [sqPts])
  have hq0 : (1 - y) • toVec 2 [(0 : ℝ), 0] + y • toVec 2 [0, 1] ∈ region sqHull :=
    (region_convex sqHull) h00 h01 (by linarith) (by linarith) (by ring)
  have hq1 : (1 - y) • toVec 2 [(1 : ℝ), 0] + y • toVec 2 [1, 1] ∈ region sqHull :=
    (region_convex sqHull) h10 h11 (by linarith) (by linarith) (by ring)
  have hp' : p = (1 - x) • ((1 - y) • toVec 2 [(0 : ℝ), 0] + y • toVec 2 [0, 1]) +
      x • ((1 - y) • toVec 2 [(1 : ℝ), 0] + y • toVec 2 [1, 1]) := by
    apply PiLp.ext
    intro i
    fin_cases i <;>
      simp [PiLp.add_apply, PiLp.smul_apply, smul_eq_mul, toVec] <;> ring
  rw [hp']
  exact (region_convex sqHull) hq0 hq1 (by linarith) (by linarith) (by ring)

lemma region_sqHull : region sqHull = unitSquare :=
  le_antisymm (convexHull_min sq_gen_mem_unitSquare unitSquare_convex)
    unitSquare_subset_region

lemma dist_22_11 : dist (toVec 2 [(2 : ℝ), 2]) (toVec 2 [1, 1]) = Real.sqrt 2 := by
  rw [EuclideanSpace.dist_eq]
  rw [Fin.sum_univ_two]
  have e0 : dist ((toVec 2 [(2 : ℝ), 2]) 0) ((toVec 2 [(1 : ℝ), 1]) 0) = 1 := by
    simp only [toVec, List.getD, Real.dist_eq]
    norm_num
  have e1 : dist ((toVec 2 [(2 : ℝ), 2]) 1) ((toVec 2 [(1 : ℝ), 1]) 1) = 1 := by
    simp only [toVec, List.getD, Real.dist_eq]
    norm_num
  rw [e0, e1]
  norm_num

lemma distance_22 : distance_to_hull sqHull (toVec 2 [2, 2]) = Real.sqrt 2 := by
  apply le_antisymm
  · have h11 : toVec 2 [(1 : ℝ), 1] ∈ region sqHull := corner_mem_region _ (by simp [sqPts])
    calc distance_to_hull sqHull (toVec 2 [2, 2])
        ≤ dist (toVec 2 [(2 : ℝ), 2]) (toVec 2 [1, 1]) :=
          Metric.infDist_le_dist_of_mem h11
      _ = Real.sqrt 2 := dist_22_11
  · by_contra hlt
    push_neg at hlt
    obtain ⟨z, hz, hdz⟩ :=
      (Metric.infDist_lt_iff (region_nonempty sqHull)).mp hlt
    rw [region_sqHull] at hz
    obtain ⟨⟨hz00, hz01⟩, hz10, hz11⟩ := hz
    have hform : dist (toVec 2 [(2 : ℝ), 2]) z =
        Real.sqrt ((2 - z 0) ^ 2 + (2 - z 1) ^ 2) := by
      rw [EuclideanSpace.dist_eq, Fin.sum_univ_two]
      have e0 : dist ((toVec 2 [(2 : ℝ), 2]) 0) (z 0) ^ 2 = (2 - z 0) ^ 2 := by
        rw [Real.dist_eq, sq_abs]
        norm_num [toVec]
      have e1 : dist ((toVec 2 [(2 : ℝ), 2]) 1) (z 1) ^ 2 = (2 - z 1) ^ 2 := by
        rw [Real.dist_eq, sq_abs]
        norm_num [toVec]
      rw [e0, e1]
    have hge : Real.sqrt 2 ≤ dist (toVec 2 [(2 : ℝ), 2]) z := by
      rw [hform]
      apply Real.sqrt_le_sqrt
      nlinarith
    exact absurd hdz (not_lt.mpr hge)

lemma distance_half : distance_to_hull sqHull (toVec 2 [1 / 2, 1 / 2]) = 0 := by
  apply Metric.infDist_zero_of_mem
  rw [region_sqHull]
  constructor <;> simp [toVec, Set.mem_Icc] <;> norm_num

lemma sqrt_two_approx : |Real.sqrt 2 - 1.414| < 1 / 1000 := by
  have hsq : Real.sqrt 2 ^ 2 = 2 := Real.sq_sqrt (by norm_num)
  have hnn : 0 ≤ Real.sqrt 2 := Real.sqrt_nonneg 2
  rw [abs_lt]
  constructor <;> nlinarith

/-- C6: for the training set {(0,0),(0,1),(1,0),(1,1)}, `build_hull`
succeeds and the hull region is the unit square; the distance of (2,2)
to the hull is the Euclidean distance √2 ≈ 1.414 to the nearest corner
(1,1); and the interior point (0.5,0.5) has distance 0. -/
theorem square_example :
    build_hull sqPts 2 = .ok sqHull ∧
      region sqHull = unitSquare ∧
      distance_to_hull sqHull (toVec 2 [2, 2]) =
        dist (toVec 2 [(2 : ℝ), 2]) (toVec 2 [1, 1]) ∧
      distance_to_hull sqHull (toVec 2 [2, 2]) = Real.sqrt 2 ∧
      |Real.sqrt 2 - 1.414| < 1 / 1000 ∧
      distance_to_hull sqHull (toVec 2 [1 / 2, 1 / 2]) = 0 :=
  ⟨build_hull_sq, region_sqHull, by rw [distance_22, dist_22_11],
    distance_22, sqrt_two_approx, distance_half⟩

/-- The centroid of the hull's training points (equal-weight center of
mass). -/
noncomputable def hullCentroid {n : ℕ} (h : Hull n) : Vec n :=
  Finset.univ.centerMass (fun _ : Fin h.1.length => (1 : ℝ)) h.1.get

/-- The point reached from the hull centroid by travelling `t` times the
displacement towards (and past) the query point `p`. -/
noncomputable def rayPoint {n : ℕ} (h : Hull n) (p : Vec n) (t : ℝ) : Vec n :=
  hullCentroid h + t • (p - hullCentroid h)

lemma hullCentroid_mem {n : ℕ} (h : Hull n) : hullCentroid h ∈ region h := by
  apply Finset.centerMass_mem_convexHull
  · intro i _
    norm_num
  · have hpos : 0 < h.1.length := List.length_pos.mpr h.2
    simp [hpos]
  · intro i _
    exact List.get_mem h.1 i.1 i.2

/-- C7: the extrapolation distance is monotonically non-decreasing as a
point moves directly away from the hull centroid along the ray through
`p`. -/
theorem extrapolation_monotone_along_ray {n : ℕ} (h : Hull n) (p : Vec n)
    {s t : ℝ} (hs : 0 ≤ s) (hst : s ≤ t) :
    distance_to_hull h (rayPoint h p s) ≤ distance_to_hull h (rayPoint h p t) := by
  rcases eq_or_lt_of_le (hs.trans hst) with ht0 | ht
  · have hs0 : s = 0 := le_antisymm (ht0 ▸ hst) hs
    rw [hs0, ← ht0]
  · set lam : ℝ := s / t with hlam
    have hlam0 : 0 ≤ lam := div_nonneg hs ht.le
    have hlam1 : lam ≤ 1 := (div_le_one ht).mpr hst
    have hlamt : lam * t = s := div_mul_cancel₀ s (ne_of_gt ht)
    obtain ⟨z, hzmem, hzd⟩ :=
      (region_isCompact h).exists_infDist_eq_dist (region_nonempty h) (rayPoint h p t)
    have hw : (1 - lam) • hullCentroid h + lam • z ∈ region h :=
      (region_convex h) (hullCentroid_mem h) hzmem (by linarith) hlam0 (by ring)
    have hkey : rayPoint h p s =
        (1 - lam) • hullCentroid h + lam • rayPoint h p t := by
      unfold rayPoint
      rw [← hlamt]
      module
    have hdiff : rayPoint h p s - ((1 - lam) • hullCentroid h + lam • z) =
        lam • (rayPoint h p t - z) := by
      rw [hkey]
      module
    have hdist : dist (rayPoint h p s) ((1 - lam) • hullCentroid h + lam • z) =
        lam * dist (rayPoint h p t) z := by
      rw [dist_eq_norm, hdiff, norm_smul, Real.norm_eq_abs, abs_of_nonneg hlam0,
        ← dist_eq_norm]
    calc distance_to_hull h (rayPoint h p s)
        ≤ dist (rayPoint h p s) ((1 - lam) • hullCentroid h + lam • z) :=
          Metric.infDist_le_dist_of_mem hw
      _ = lam * dist (rayPoint h p t) z := hdist
      _ ≤ dist (rayPoint h p t) z :=
          mul_le_of_le_one_left dist_nonneg hlam1
      _ = distance_to_hull h (rayPoint h p t) := hzd.symm

/-- Witness for C7: on the unit-square hull with query point (2,2), the
distance at ray parameter 1 is at most the distance at ray parameter 2. -/
theorem extrapolation_monotone_witness :
    (0 : ℝ) ≤ 1 ∧ (1 : ℝ) ≤ 2 ∧
      distance_to_hull sqHull (rayPoint sqHull (toVec 2 [2, 2]) 1) ≤
        distance_to_hull sqHull (rayPoint sqHull (toVec 2 [2, 2]) 2) :=
  ⟨by norm_num, by norm_num,
    extrapolation_monotone_along_ray sqHull (toVec 2 [2, 2])
      (by norm_num) (by norm_num)⟩

/-- Modelled from the spec: an evaluation point carries a point identity
and raw attribute coordinates, where a missing/NaN dimension is `none`. -/
structure EvalPoint where
  pid : ℕ
  coords : List (Option ℝ)

/-- Modelled from the spec: one `ExtrapolationRecord` per evaluation
point, carrying the point identity and the distance to the hull. -/
structure ExtrapolationRecord where
  pid : ℕ
  distance : ℝ

/-- Modelled from the spec: one `PerformanceRecord` per evaluation point,
carrying the point identity and the scalar performance score. -/
structure PerformanceRecord where
  pid : ℕ
  score : ℝ

/-- An evaluation point is complete when none of its dimensions is
missing/NaN. -/
def EvalPoint.complete (e : EvalPoint) : Bool := e.coords.all Option.isSome

/-- The record produced for one complete evaluation point. -/
noncomputable def mkRecord {n : ℕ} (h : Hull n) (e : EvalPoint) : ExtrapolationRecord :=
  ⟨e.pid, distance_to_hull h (toVec n (e.coords.map (fun c => c.getD 0)))⟩

/-- Modelled from the spec: `compute_extrapolation(hull, evaluation_points)`
produces one record per complete evaluation point, in input order,
together with the count of points skipped for missing/NaN dimensions. -/
noncomputable def compute_extrapolation {n : ℕ} (h : Hull n) :
    List EvalPoint → List ExtrapolationRecord × ℕ
  | [] => ([], 0)
  | e :: rest =>
    let r := compute_extrapolation h rest
    if e.complete then (mkRecord h e :: r.1, r.2) else (r.1, r.2 + 1)

/-- C5: `compute_extrapolation` yields exactly one record per complete
evaluation point, in input order, and the skipped count equals the number
of points with a missing/NaN dimension, so records plus skipped points
account for every input point. -/
theorem compute_extrapolation_spec {n : ℕ} (h : Hull n) (points : List EvalPoint) :
    (compute_extrapolation h points).1 =
        (points.filter EvalPoint.complete).map (mkRecord h) ∧
      (compute_extrapolation h points).2 =
        (points.filter (fun e => !e.complete)).length ∧
      (compute_extrapolation h points).1.length +
          (compute_extrapolation h points).2 = points.length := by
  induction points with
  | nil => simp [compute_extrapolation]
  | cons e rest ih =>
    obtain ⟨ih1, ih2, ih3⟩ := ih
    rw [ih1, ih2] at ih3
    simp only [List.length_map] at ih3
    by_cases hc : e.complete
    · refine ⟨?_, ?_, ?_⟩ <;>
        (simp [compute_extrapolation, hc, ih1, ih2, List.filter_cons,
          List.length_map]; try omega)
    · refine ⟨?_, ?_, ?_⟩ <;>
        (simp [compute_extrapolation, hc, ih1, ih2, List.filter_cons,
          List.length_map]; try omega)

/-- Modelled from the spec: configuration of the correlation analyzer
(the configurable minimum number of matched pairs). -/
structure CorrConfig where
  minSamples : ℕ

/-- Modelled from the spec: the correlation analyzer's error taxonomy;
`InsufficientSampleError` reports the number of matched pairs found. -/
inductive CorrError
  | InsufficientSampleError (matched : ℕ)
deriving DecidableEq

/-- Modelled from the spec: the terminal correlation output. -/
structure CorrelationResult where
  coefficient : ℝ
  sampleSize : ℕ

/-- The linear (Pearson) correlation coefficient of a list of pairs. -/
noncomputable def pearson (pairs : List (ℝ × ℝ)) : ℝ :=
  let n : ℝ := pairs.length
  let sx := (pairs.map Prod.fst).sum
  let sy := (pairs.map Prod.snd).sum
  let sxx := (pairs.map (fun q => q.1 * q.1)).sum
  let syy := (pairs.map (fun q => q.2 * q.2)).sum
  let sxy := (pairs.map (fun q => q.1 * q.2)).sum
  (n * sxy - sx * sy) /
    (Real.sqrt (n * sxx - sx * sx) * Real.sqrt (n * syy - sy * sy))

/-- Join extrapolation and performance records by point identity. -/
def matchedPairs (ex : List ExtrapolationRecord) (pf : List PerformanceRecord) :
    List (ℝ × ℝ) :=
  ex.filterMap fun e =>
    (pf.find? fun q => q.pid == e.pid).map fun q => (e.distance, q.score)

/-- Modelled from the spec: `correlate(extrapolation_records,
performance_records)` joins by point identity and fails with
`InsufficientSampleError` when fewer than the configured minimum number
of matched pairs remain. -/
noncomputable def correlate (cfg : CorrConfig) (ex : List ExtrapolationRecord)
    (pf : List PerformanceRecord) : Except CorrError CorrelationResult :=
  let pairs := matchedPairs ex pf
  if pairs.length < cfg.minSamples then
    .error (.InsufficientSampleError pairs.length)
  else .ok ⟨pearson pairs, pairs.length⟩

lemma matchedPairs_nil_of_disjoint {ex : List ExtrapolationRecord}
    {pf : List PerformanceRecord}
    (hd : ∀ e ∈ ex, ∀ q ∈ pf, e.pid ≠ q.pid) : matchedPairs ex pf = [] := by
  rw [matchedPairs, List.filterMap_eq_nil_iff]
  intro e he
  rw [Option.map_eq_none', List.find?_eq_none]
  intro q hq
  simp only [beq_iff_eq]
  exact fun hEq => hd e he q hq hEq.symm

/-- C4: `correlate` fails with `InsufficientSampleError` whenever fewer
matched pairs than the configured minimum remain after joining, and for
record sets with disjoint point-identity sets (with a positive minimum)
it reports zero matched pairs. -/
theorem correlate_insufficient_spec (cfg : CorrConfig)
    (ex : List ExtrapolationRecord) (pf : List PerformanceRecord) :
    ((matchedPairs ex pf).length < cfg.minSamples →
        correlate cfg ex pf =
          .error (.InsufficientSampleError (matchedPairs ex pf).length)) ∧
      ((∀ e ∈ ex, ∀ q ∈ pf, e.pid ≠ q.pid) → 1 ≤ cfg.minSamples →
        matchedPairs ex pf = [] ∧
          correlate cfg ex pf = .error (.InsufficientSampleError 0)) := by
  constructor
  · intro hlt
    unfold correlate
    rw [if_pos hlt]
  · intro hd hmin
    have hnil : matchedPairs ex pf = [] := matchedPairs_nil_of_disjoint hd
    refine ⟨hnil, ?_⟩
    unfold correlate
    rw [hnil]
    have h0 : ([] : List (ℝ × ℝ)).length < cfg.minSamples := by
      simp only [List.length_nil]
      omega
    rw [if_pos h0]
    rfl

/-- Witness for C4: an extrapolation record with identity 1 and a
performance record with identity 2 have disjoint identity sets; with
minimum sample size 2, `correlate` reports `InsufficientSampleError`
with zero matched pairs. -/
theorem correlate_insufficient_witness :
    (∀ e ∈ [ExtrapolationRecord.mk 1 5], ∀ q ∈ [PerformanceRecord.mk 2 3],
        e.pid ≠ q.pid) ∧
      1 ≤ (2 : ℕ) ∧
      matchedPairs [ExtrapolationRecord.mk 1 5] [PerformanceRecord.mk 2 3] = [] ∧
      correlate ⟨2⟩ [ExtrapolationRecord.mk 1 5] [PerformanceRecord.mk 2 3] =
        .error (.InsufficientSampleError 0) := by
  have hd : ∀ e ∈ [ExtrapolationRecord.mk 1 5], ∀ q ∈ [PerformanceRecord.mk 2 3],
      e.pid ≠ q.pid := by
    intro e he q hq
    simp only [List.mem_singleton] at he hq
    subst he
    subst hq
    decide
  have hmain :=
    (correlate_insufficient_spec ⟨2⟩ [ExtrapolationRecord.mk 1 5]
      [PerformanceRecord.mk 2 3]).2 hd (by norm_num)
  exact ⟨hd, by norm_num, hmain.1, hmain.2⟩

/-- Modelled from the spec: a per-time-step latent-state vector for one
catchment (point identity plus latent coordinates). -/
structure LatentPoint where
  pid : ℕ
  coords : List ℝ

/-- Modelled from the spec: the window policy of the temporal extension. -/
inductive WindowPolicy
  | EXPANDING
  | SLIDING (width : ℕ)

/-- Modelled from the spec: the per-window state machine
{INITIALIZING → ACCUMULATING → STABLE}. -/
inductive WState
  | INITIALIZING
  | ACCUMULATING
  | STABLE
deriving DecidableEq

/-- Modelled from the spec: the per-time-index output of the temporal
extension, either `Insufficient` or a computed correlation result. -/
inductive TimedResult
  | Insufficient
  | Result (r : CorrelationResult)

/-- The window of time steps contributing at index `t`. -/
def windowAt {α : Type} : WindowPolicy → ℕ → List α → List α
  | .EXPANDING, t, series => series.take (t + 1)
  | .SLIDING w, t, series => (series.take (t + 1)).drop (t + 1 - w)

/-- The window's state: `INITIALIZING` while empty, `ACCUMULATING` until
the minimum window-size and point-count requirements are met, then
`STABLE`. -/
def stateAt (minW minPts wsize npts : ℕ) : WState :=
  if wsize = 0 then .INITIALIZING
  else if wsize < minW ∨ npts < minPts then .ACCUMULATING
  else .STABLE

open Classical in
/-- The result at one time index: `Insufficient` before the window's
state machine reaches `STABLE`, otherwise the correlation of hull
distances (for the hull of the windowed latent points, evaluated at the
step's latent representation) against the performance records. -/
noncomputable def stepResult (minW dims : ℕ) (latents : List (List LatentPoint))
    (perf : List PerformanceRecord) (policy : WindowPolicy) (t : ℕ) : TimedResult :=
  let window := windowAt policy t latents
  let pts := window.flatten.map fun q => toVec dims q.coords
  if hne : pts = [] then .Insufficient
  else if stateAt minW (dims + 1) window.length window.flatten.length = .STABLE then
    let h : Hull dims := ⟨pts, hne⟩
    let recs := (latents.getD t []).map fun q =>
      ExtrapolationRecord.mk q.pid (distance_to_hull h (toVec dims q.coords))
    .Result ⟨pearson (matchedPairs recs perf), (matchedPairs recs perf).length⟩
  else .Insufficient

/-- Modelled from the spec: `correlate_over_time` replays the
extrapolation/correlation pipeline over a sliding or expanding window,
producing one `TimedResult` per time index. -/
noncomputable def correlate_over_time (minW dims : ℕ) (policy : WindowPolicy)
    (latents : List (List LatentPoint)) (perf : List PerformanceRecord) :
    List TimedResult :=
  (List.range latents.length).map (stepResult minW dims latents perf policy)

lemma stateAt_eq_STABLE_iff {minW minPts wsize npts : ℕ} :
    stateAt minW minPts wsize npts = .STABLE ↔
      wsize ≠ 0 ∧ minW ≤ wsize ∧ minPts ≤ npts := by
  unfold stateAt
  split_ifs with h1 h2 <;> (simp_all; try omega)

lemma correlate_over_time_getElem {minW dims : ℕ} {policy : WindowPolicy}
    {latents : List (List LatentPoint)} {perf : List PerformanceRecord}
    {t : ℕ} (ht : t < latents.length) :
    (correlate_over_time minW dims policy latents perf)[t]? =
      some (stepResult minW dims latents perf policy t) := by
  unfold correlate_over_time
  rw [List.getElem?_map, List.getElem?_range ht]
  rfl

/-- C9: a time index whose window has not reached the `STABLE` state is
marked `Insufficient` (never a computed coefficient), and a time index
whose window is `STABLE` — in particular a filled `SLIDING` window —
carries a computed correlation result. -/
theorem correlate_over_time_state_spec (minW dims : ℕ) (policy : WindowPolicy)
    (latents : List (List LatentPoint)) (perf : List PerformanceRecord)
    (t : ℕ) (ht : t < latents.length) :
    (stateAt minW (dims + 1) (windowAt policy t latents).length
          (windowAt policy t latents).flatten.length ≠ .STABLE →
        (correlate_over_time minW dims policy latents perf)[t]? =
          some .Insufficient) ∧
      (stateAt minW (dims + 1) (windowAt policy t latents).length
          (windowAt policy t latents).flatten.length = .STABLE →
        ∃ r, (correlate_over_time minW dims policy latents perf)[t]? =
          some (.Result r)) := by
  constructor
  · intro hns
    rw [correlate_over_time_getElem ht]
    simp only [stepResult]
    by_cases hne : (windowAt policy t latents).flatten.map
        (fun q => toVec dims q.coords) = []
    · rw [dif_pos hne]
    · rw [dif_neg hne, if_neg hns]
  · intro hst
    rw [correlate_over_time_getElem ht]
    obtain ⟨-, -, hpts⟩ := stateAt_eq_STABLE_iff.mp hst
    have hflat : (windowAt policy t latents).flatten ≠ [] := by
      intro hnil
      rw [hnil] at hpts
      simp at hpts
    have hne : (windowAt policy t latents).flatten.map
        (fun q => toVec dims q.coords) ≠ [] := by
      simpa using hflat
    have hstep : ∃ r, stepResult minW dims latents perf policy t = .Result r := by
      simp only [stepResult]
      rw [dif_neg hne, if_pos hst]
      exact ⟨_, rfl⟩
    obtain ⟨r, hr⟩ := hstep
    exact ⟨r, by rw [hr]⟩

/-- Concrete two-step latent series used to exercise the temporal
extension. -/
def latents2 : List (List LatentPoint) := [[⟨0, [0]⟩], [⟨1, [1]⟩]]

/-- Witness for C9: with a SLIDING window of width 2, minimum window
size 2 and 1-D latent space, time step 0 is still ACCUMULATING and is
marked `Insufficient`, while at time step 1 the window has filled, the
state is `STABLE`, and a computed correlation result is reported. -/
theorem correlate_over_time_witness :
    (0 < latents2.length ∧
        stateAt 2 2 (windowAt (.SLIDING 2) 0 latents2).length
            (windowAt (.SLIDING 2) 0 latents2).flatten.length ≠ .STABLE ∧
        (correlate_over_time 2 1 (.SLIDING 2) latents2 [])[0]? =
          some .Insufficient) ∧
      (1 < latents2.length ∧
        stateAt 2 2 (windowAt (.SLIDING 2) 1 latents2).length
            (windowAt (.SLIDING 2) 1 latents2).flatten.length = .STABLE ∧
        ∃ r, (correlate_over_time 2 1 (.SLIDING 2) latents2 [])[1]? =
          some (.Result r)) := by
  have h0 : (0 : ℕ) < latents2.length := by
    simp [latents2]
  have h1 : (1 : ℕ) < latents2.length := by
    simp [latents2]
  have hw0 : stateAt 2 2 (windowAt (.SLIDING 2) 0 latents2).length
      (windowAt (.SLIDING 2) 0 latents2).flatten.length ≠ .STABLE := by
    intro hst
    obtain ⟨-, hky, -⟩ := stateAt_eq_STABLE_iff.mp hst
    simp [latents2, windowAt] at hky
  have hw1 : stateAt 2 2 (windowAt (.SLIDING 2) 1 latents2).length
      (windowAt (.SLIDING 2) 1 latents2).flatten.length = .STABLE := by
    apply stateAt_eq_STABLE_iff.mpr
    refine ⟨?_, ?_, ?_⟩ <;> simp [latents2, windowAt]
  exact ⟨⟨h0, hw0,
      (correlate_over_time_state_spec 2 1 (.SLIDING 2) latents2 [] 0 h0).1 hw0⟩,
    ⟨h1, hw1,
      (correlate_over_time_state_spec 2 1 (.SLIDING 2) latents2 [] 1 h1).2 hw1⟩⟩

/-- An abstract raster pixel position. -/
structure Pixel where
  x : ℤ
  y : ℤ

/-- A single-band Earth-Engine image: a band name and a per-pixel value. -/
structure EEImage where
  bandName : String
  val : Pixel → ℝ

/-- Pointwise mean of an image collection (`collection.mean()`); band
names are preserved. -/
noncomputable def collectionMean (imgs : List EEImage) : EEImage :=
  { bandName := (imgs.map EEImage.bandName).headD "",
    val := fun p => (imgs.map fun i => i.val p).sum / imgs.length }

/-- Pointwise subtraction of a constant (`image.subtract(c)`). -/
noncomputable def EEImage.subtract (img : EEImage) (c : ℝ) : EEImage :=
  ⟨img.bandName, fun p => img.val p - c⟩

/-- Band renaming (`image.rename(s)`). -/
def EEImage.rename (img : EEImage) (s : String) : EEImage := ⟨s, img.val⟩

/-- Embedded from `compare_hawaii_atmosphere.js` lines 160–162: the
multi-year mean ERA5-Land 2m temperature (Kelvin) converted to Celsius
by subtracting 273.15 and renamed to `annual_temp_C`. -/
noncomputable def meanTempC (era5 : List EEImage) : EEImage :=
  ((collectionMean era5).subtract 273.15).rename "annual_temp_C"

/-- Embedded from `compare_hawaii_atmosphere.js` lines 92–96: the key a
statistics lookup uses for `key` is the image's band name, an
underscore, and the statistic name. -/
def getStatKey (image : EEImage) (key : String) : String :=
  image.bandName ++ "_" ++ key

/-- C10: for every pixel, the analyzed Celsius temperature equals the
multi-year mean of the Kelvin band minus exactly 273.15; the band is
named `annual_temp_C`, and every downstream statistics lookup key starts
with that name. -/
theorem meanTempC_spec (era5 : List EEImage) (p : Pixel) :
    (meanTempC era5).val p =
        (era5.map fun i => i.val p).sum / (era5.length : ℝ) - 273.15 ∧
      (meanTempC era5).bandName = "annual_temp_C" ∧
      ∀ key, getStatKey (meanTempC era5) key = "annual_temp_C" ++ "_" ++ key :=
  ⟨rfl, rfl, fun _ => rfl⟩

/-- A geographic bounding box (`ee.Geometry.Rectangle`). -/
structure Rect where
  xmin : ℚ
  ymin : ℚ
  xmax : ℚ
  ymax : ℚ
deriving DecidableEq

/-- Embedded from `compare_hawaii_atmosphere.js` lines 1–13: the
module-level configuration constants `REGIONS`, `START_YEAR`,
`END_YEAR` and `SAMPLING_SCALE`. -/
structure ModuleState where
  conus : Rect
  hawaii : Rect
  startYear : ℤ
  endYear : ℤ
  samplingScale : ℕ
deriving DecidableEq

/-- The `REGIONS[regionName]` lookup of the script. -/
def ModuleState.regionOf (ms : ModuleState) (name : String) : Option Rect :=
  if name = "CONUS" then some ms.conus
  else if name = "HAWAII" then some ms.hawaii
  else none

/-- The module-level constant values of the script as written. -/
def defaultModule : ModuleState :=
  { conus := ⟨-125, 25, -66, 50⟩
    hawaii := ⟨-160, 18, -154, 23⟩
    startYear := 2010
    endYear := 2020
    samplingScale := 10000 }

/-- The observable output of one `printStatistics` run: what it prints
and the reduce-region request it issues. -/
structure StatisticsReport where
  statName : String
  regionName : String
  samplingScale : ℕ
  geometry : Option Rect
  keyBase : String
deriving DecidableEq

/-- Embedded from `compare_hawaii_atmosphere.js` lines 72–108:
`printStatistics(image, regionName, statName)` receives no configuration
argument; it reads `SAMPLING_SCALE` and `REGIONS` from module scope and
builds statistic keys from the image's band name. -/
def printStatistics (ms : ModuleState) (image : EEImage)
    (regionName statName : String) : StatisticsReport :=
  { statName := statName
    regionName := regionName
    samplingScale := ms.samplingScale
    geometry := ms.regionOf regionName
    keyBase := image.bandName }

/-- A concrete single-band image standing in for the precipitation
composite. -/
noncomputable def imgPrcp : EEImage := ⟨"annual_prcp", fun _ => 0⟩

/-- Counterexample to C2: two runs of `printStatistics` with identical
passed-in arguments but module-level sampling scales 10000 and 5000
produce different outputs, so outputs are not determined by the
passed-in arguments alone. -/
theorem printStatistics_not_module_free :
    printStatistics defaultModule imgPrcp "CONUS" "Annual Precipitation (mm/yr)" ≠
      printStatistics { defaultModule with samplingScale := 5000 } imgPrcp
        "CONUS" "Annual Precipitation (mm/yr)" := by
  intro hEq
  have hscale : (10000 : ℕ) = 5000 :=
    congrArg StatisticsReport.samplingScale hEq
  omega

/-- C2 (amended): `printStatistics` reads its region bounding boxes and
sampling scale from the module-level constants rather than a passed-in
configuration; its output is determined by those module-level
configuration fields together with the explicit arguments, so two runs
agreeing on the sampling scale and region boxes (the year range is not
read) produce equal outputs. -/
theorem printStatistics_config_determined (ms₁ ms₂ : ModuleState)
    (image : EEImage) (regionName statName : String)
    (hscale : ms₁.samplingScale = ms₂.samplingScale)
    (hconus : ms₁.conus = ms₂.conus) (hhawaii : ms₁.hawaii = ms₂.hawaii) :
    printStatistics ms₁ image regionName statName =
      printStatistics ms₂ image regionName statName := by
  unfold printStatistics ModuleState.regionOf
  rw [hscale, hconus, hhawaii]

/-- Witness for the amended C2: module states differing only in the
(unread) start year give equal reports. -/
theorem printStatistics_config_determined_witness :
    (defaultModule.samplingScale =
          ({ defaultModule with startYear := 1999 } : ModuleState).samplingScale ∧
        defaultModule.conus =
          ({ defaultModule with startYear := 1999 } : ModuleState).conus ∧
        defaultModule.hawaii =
          ({ defaultModule with startYear := 1999 } : ModuleState).hawaii) ∧
      printStatistics defaultModule imgPrcp "HAWAII" "Annual Average Temperature (C)" =
        printStatistics { defaultModule with startYear := 1999 } imgPrcp
          "HAWAII" "Annual Average Temperature (C)" :=
  ⟨⟨rfl, rfl, rfl⟩,
    printStatistics_config_determined defaultModule
      { defaultModule with startYear := 1999 } imgPrcp
      "HAWAII" "Annual Average Temperature (C)" rfl rfl rfl⟩

end ConvexHydrology
